import Mathlib

/-!
Shallow embedding of the pdfh page-tree manipulation core (src/src/utils.rs,
src/src/main.rs).  PDF objects are modelled as a tagged union mirroring
lopdf's `Object` enum (the `Real(f64)` variant is omitted: no operation of
this core ever constructs or inspects a real number).  Dictionaries are
association lists with the same insertion-order/overwrite semantics as
lopdf's `Dictionary` (`set` replaces in place or appends, `remove` deletes
the key, `extend` folds `set` over the other dictionary).

Two views of a document are used, matching what the source code touches:
* `PageDoc` — the traversal-ordered list of leaf-page dictionaries, the view
  used by the page-selection and page-mutation helpers (which only ever go
  through the collaborator's `get_pages`/`delete_pages` page-number
  interface);
* `MDoc` — the full object table (a sorted id → object map modelling
  lopdf's `BTreeMap<ObjectId, Object>`) plus trailer, the view used by
  `merge_documents` and `reverse_doc`.

Rust panics and `Err` propagation are modelled with `Except String`.
-/

inductive Obj where
  | null
  | boolean (b : Bool)
  | integer (n : Int)
  | name (s : String)
  | str (s : String)
  | array (elems : List Obj)
  | dict (entries : List (String × Obj))
  | stream (entries : List (String × Obj))
  | ref (id : Nat)
  deriving Repr

/-- A PDF dictionary: ordered association list from key to object. -/
abbrev Dict := List (String × Obj)

/-- lopdf `Dictionary::get`: first entry with the given key. -/
def Dict.get : Dict → String → Option Obj
  | [], _ => none
  | (k', v) :: rest, k => if k' = k then some v else Dict.get rest k

/-- lopdf `Dictionary::set`: replace the value in place if the key exists,
otherwise append the pair at the end. -/
def Dict.set : Dict → String → Obj → Dict
  | [], k, v => [(k, v)]
  | (k', v') :: rest, k, v =>
    if k' = k then (k, v) :: rest else (k', v') :: Dict.set rest k v

/-- lopdf `Dictionary::remove`. -/
def Dict.remove (d : Dict) (k : String) : Dict :=
  d.filter (fun e => e.1 ≠ k)

/-- lopdf `Dictionary::extend`: set every entry of `other` into `d`
(entries of `other` overwrite entries of `d`). -/
def Dict.extend (d other : Dict) : Dict :=
  other.foldl (fun acc e => Dict.set acc e.1 e.2) d

/-- lopdf `Object::as_dict` (succeeds only on the dictionary variant). -/
def Obj.as_dict : Obj → Option Dict
  | .dict d => some d
  | _ => none

/-- lopdf `Object::type_name`: the `Type` entry of a dictionary or of a
stream's dictionary, provided it is a name. -/
def Obj.typeName : Obj → Option String
  | .dict d =>
    match Dict.get d "Type" with
    | some (.name s) => some s
    | _ => none
  | .stream d =>
    match Dict.get d "Type" with
    | some (.name s) => some s
    | _ => none
  | _ => none

/-! ## The page-level view used by select/delete/extract/rotate

A `PageDoc` is the document as seen through the collaborator's
`get_pages` enumeration: the list of leaf-page dictionaries in canonical
traversal order; page number `i` (1-based) is entry `i - 1`. -/

abbrev PageDoc := List Dict

/-- `utils.rs::make_pages_page_numbers`.  With `negate` the code builds a
`HashSet` holding `1..=doc.get_pages().len()`, removes every listed page,
and returns the resulting set (iteration order of the `HashSet` is
unspecified in the source; the model returns the set in ascending order —
all claims about this branch are membership statements).  Without `negate`
the input list is returned verbatim. -/
def make_pages_page_numbers (pages : List Nat) (doc : PageDoc) (negate : Bool) : List Nat :=
  if negate then
    (List.range' 1 doc.length).filter (fun x => !(pages.contains x))
  else
    pages

/-- `utils.rs::make_every_page_numbers`.  Iterates the page numbers
`1..=total` testing `page_num % every`; when `every = 0` and there is at
least one page the first iteration of the Rust loop panics with the
division-by-zero message, modelled as `Except.error`. -/
def make_every_page_numbers (every : Nat) (doc : PageDoc) (negate : Bool) :
    Except String (List Nat) :=
  if every = 0 ∧ doc.length ≠ 0 then
    .error "attempt to calculate the remainder with a divisor of zero"
  else
    .ok (if negate then
          (List.range' 1 doc.length).filter (fun p => !(p % every == 0))
        else
          (List.range' 1 doc.length).filter (fun p => p % every == 0))

/-- Modelled from the spec: the external collaborator's
`delete_pages(Graph, set of page-numbers)` primitive (§6, lopdf's
`Document::delete_pages`, not part of this repository): removes the named
pages; numbers outside `[1, total]` are ignored, not errors. -/
def Lopdf.delete_pages (doc : PageDoc) (nums : List Nat) : PageDoc :=
  ((List.range' 1 doc.length).zip doc).filterMap
    (fun e => if nums.contains e.1 then none else some e.2)

/-- `utils.rs::delete_pages`: dispatch on `--pages` vs `--every`; both
absent is the `--every is not a valid integer` panic. -/
def delete_pages (doc : PageDoc) (pages : Option (List Nat)) (every : Option Nat)
    (negate : Bool) : Except String PageDoc :=
  match pages with
  | some p => .ok (Lopdf.delete_pages doc (make_pages_page_numbers p doc negate))
  | none =>
    match every with
    | some e => (make_every_page_numbers e doc negate).map (fun nums => Lopdf.delete_pages doc nums)
    | none => .error "--every is not a valid integer"

/-- `utils.rs::extract_pages`: same dispatch with the selection negated. -/
def extract_pages (doc : PageDoc) (pages : Option (List Nat)) (every : Option Nat) :
    Except String PageDoc :=
  match pages with
  | some p => .ok (Lopdf.delete_pages doc (make_pages_page_numbers p doc true))
  | none =>
    match every with
    | some e => (make_every_page_numbers e doc true).map (fun nums => Lopdf.delete_pages doc nums)
    | none => .error "--every is not a valid integer"

/-- `utils.rs::save_pdf`.  The four collaborator cleanup passes
(`prune_objects`, `adjust_zero_pages`, `build_outline`,
`delete_zero_length_streams`) are modelled from the spec (§6): none of
them adds or removes a leaf page reachable from the root, so on the
leaf-page view they are the identity.  After them the page count is
checked; zero pages is a fatal panic and the file write (`doc.save`) is
never reached, which the model renders as `Except.error` (an `.ok` result
stands for the document that got written out). -/
def save_pdf (doc : PageDoc) : Except String PageDoc :=
  if doc.length = 0 then .error "Resulting document would have no pages."
  else .ok doc

/-- `utils.rs::delete` (the `--compress` flag only changes the stream
encoding of the serialized bytes, never the page structure, and file-path
plumbing is outside the model). -/
def delete (doc : PageDoc) (pages : Option (List Nat)) (every : Option Nat)
    (negate : Bool) : Except String PageDoc :=
  (delete_pages doc pages every negate).bind save_pdf

/-- `utils.rs::extract`. -/
def extract (doc : PageDoc) (pages : Option (List Nat)) (every : Option Nat) :
    Except String PageDoc :=
  (extract_pages doc pages every).bind save_pdf

/-- `utils.rs::rotate_select_pages`: for each selected number, look the
page up in the (fixed) page-number map, and when present overwrite its
`Rotate` entry with the supplied degrees; absent numbers are skipped.
Updating a page never changes the page numbering, so folding over the
current document is equivalent to the source's one-shot `get_pages`
snapshot. -/
def rotateStep (degrees : Int) (d : PageDoc) (p : Nat) : PageDoc :=
  if p = 0 then d
  else
    match d[p - 1]? with
    | some pg => d.set (p - 1) (Dict.set pg "Rotate" (.integer degrees))
    | none => d

def rotate_select_pages (doc : PageDoc) (page_numbers : List Nat) (degrees : Int) : PageDoc :=
  page_numbers.foldl (rotateStep degrees) doc

/-- `utils.rs::rotate_all_pages`. -/
def rotate_all_pages (doc : PageDoc) (degrees : Int) : PageDoc :=
  doc.map (fun pg => Dict.set pg "Rotate" (.integer degrees))

/-- `utils.rs::rotate_doc`. -/
def rotate_doc (doc : PageDoc) (degrees : Int) (pages : Option (List Nat))
    (every : Option Nat) : Except String PageDoc :=
  match pages with
  | some p => save_pdf (rotate_select_pages doc (make_pages_page_numbers p doc false) degrees)
  | none =>
    match every with
    | some e =>
      (make_every_page_numbers e doc false).bind
        (fun nums => save_pdf (rotate_select_pages doc nums degrees))
    | none => save_pdf (rotate_all_pages doc degrees)

/-- Reading a page's rotation back: the `Rotate` entry, an absent (or
non-integer) attribute meaning 0. -/
def getRotate (pg : Dict) : Int :=
  match Dict.get pg "Rotate" with
  | some (.integer n) => n
  | _ => 0

/-- A leaf page carrying a distinguishing payload, for concrete scenarios. -/
def pageN (i : Int) : Dict := [("N", Obj.integer i)]

/-- A concrete six-page document. -/
def sixDoc : PageDoc := [pageN 1, pageN 2, pageN 3, pageN 4, pageN 5, pageN 6]

/-- A concrete three-page document (pages with no attributes). -/
def threePages : PageDoc := [[], [], []]

/-! ## The object-table view used by reverse and merge

A `Table` models lopdf's `BTreeMap<ObjectId, Object>`: an association list
from object id to object, kept sorted by id (generation numbers play no
role in any operation of this core and are collapsed into the id). -/

abbrev Table := List (Nat × Obj)

/-- One iteration of the scan in `utils.rs::reverse_doc`: an object typed
`Pages` that is a dictionary has its `Kids` fetched; an array `Kids` is
reversed and the object written back, a missing `Kids` is logged and the
object left untouched, while a `Kids` that is present but not an array
hits `ref_arr.as_array().unwrap()` — a panic, modelled as `Except.error`.
Objects of any other type (and stream-typed `Pages`, whose `as_dict`
fails) are left untouched. -/
def reverseStep (e : Nat × Obj) : Except String (Nat × Obj) :=
  if (Obj.typeName e.2).getD "" = "Pages" then
    match Obj.as_dict e.2 with
    | some d =>
      match Dict.get d "Kids" with
      | some (.array arr) => .ok (e.1, .dict (Dict.set d "Kids" (.array arr.reverse)))
      | some _ => .error "called Result::unwrap on an Err value: Type"
      | none => .ok e
    | none => .ok e
  else .ok e

/-- The object scan of `utils.rs::reverse_doc` (the subsequent `save_pdf`
call is the finalization modelled above).  The source iterates a clone of
the object map in ascending id order, re-inserting each processed object
under its own id; a panic midway aborts the whole process before any file
is written, so the scan is an all-or-nothing `Except`. -/
def reverse_doc_scan : Table → Except String Table
  | [] => .ok []
  | e :: rest => do
    let e' ← reverseStep e
    let rest' ← reverse_doc_scan rest
    pure (e' :: rest')

/-- A Pages-collection whose `Kids` is present but not an array. -/
def badKidsTable : Table :=
  [(1, Obj.dict [("Type", Obj.name "Pages"), ("Kids", Obj.integer 3)])]

/-! ## GraphMerger: `utils.rs::merge_documents`

`Table.insert` models `BTreeMap::insert` on the sorted association list;
`Table.extend` models `BTreeMap::extend`. -/

def Table.lookup : Table → Nat → Option Obj
  | [], _ => none
  | e :: rest, k => if e.1 = k then some e.2 else Table.lookup rest k

def Table.insert : Table → Nat → Obj → Table
  | [], k, v => [(k, v)]
  | e :: rest, k, v =>
    if k < e.1 then (k, v) :: e :: rest
    else if k = e.1 then (k, v) :: rest
    else e :: Table.insert rest k v

def Table.extend (m : Table) (xs : Table) : Table :=
  xs.foldl (fun acc e => Table.insert acc e.1 e.2) m

mutual
/-- Identifier substitution under `Document::renumber_objects_with`:
every `Reference` is rewritten through the replacement map, recursively
through arrays, dictionaries and stream dictionaries. -/
def Obj.renumber (f : Nat → Nat) : Obj → Obj
  | .null => .null
  | .boolean b => .boolean b
  | .integer n => .integer n
  | .name s => .name s
  | .str s => .str s
  | .array xs => .array (Obj.renumberList f xs)
  | .dict es => .dict (Obj.renumberEntries f es)
  | .stream es => .stream (Obj.renumberEntries f es)
  | .ref i => .ref (f i)

def Obj.renumberList (f : Nat → Nat) : List Obj → List Obj
  | [] => []
  | o :: rest => Obj.renumber f o :: Obj.renumberList f rest

def Obj.renumberEntries (f : Nat → Nat) : List (String × Obj) → List (String × Obj)
  | [] => []
  | e :: rest => (e.1, Obj.renumber f e.2) :: Obj.renumberEntries f rest
end

/-- A document as `merge_documents` sees it: the object table (sorted by
id, the `BTreeMap` invariant), the collaborator's `get_pages` enumeration
(modelled from the spec §6 as the stored traversal-ordered list of
leaf-page object ids, renumbered together with the table since the
traversal follows the renumbered references), the trailer dictionary and
the `max_id` bookkeeping field. -/
structure MDoc where
  objects : Table
  pages : List Nat
  trailer : Dict
  maxId : Nat

/-- The id replacement map of `renumber_objects_with`: walking the table
keys in ascending (`BTreeMap` iteration) order, each key is reassigned the
next fresh id starting at `start`; ids absent from the table are left
unchanged. -/
def renumberMap (start : Nat) : List Nat → Nat → Nat
  | [], id => id
  | k :: rest, id => if id = k then start else renumberMap (start + 1) rest id

/-- Re-key a list of objects with consecutive ids from `start`. -/
def tagFrom (start : Nat) : List Obj → Table
  | [] => []
  | o :: rest => (start, o) :: tagFrom (start + 1) rest

/-- lopdf `Document::renumber_objects_with(starting_id)` on the model:
new ids are handed out in ascending old-id order starting at `start`,
references everywhere (objects, trailer) are rewritten, `max_id` becomes
the last id handed out. -/
def MDoc.renumber_objects_with (d : MDoc) (start : Nat) : MDoc :=
  let f := renumberMap start (d.objects.map Prod.fst)
  { objects := tagFrom start (d.objects.map (fun e => Obj.renumber f e.2)),
    pages := d.pages.map f,
    trailer := Obj.renumberEntries f d.trailer,
    maxId := start + d.objects.length - 1 }

/-- lopdf `Document::renumber_objects()` = `renumber_objects_with(1)`. -/
def MDoc.renumber_objects (d : MDoc) : MDoc :=
  d.renumber_objects_with 1

/-- The per-document loop of `merge_documents` (lines 394–428): renumber
each input at the running `max_id`, then extend `documents_pages` with the
page snapshot (`get_pages` collected into a `BTreeMap` keyed by object
id — this re-keying is what loses the traversal order) and
`documents_objects` with the whole renumbered table.  The source's
`doc.get_object(object_id).unwrap()` is modelled with a `.getD .null`
(the panic case, a page id absent from its own table, is outside every
claim's inputs). -/
def collectDocs : List MDoc → Nat → Table × Table → Table × Table
  | [], _, acc => acc
  | d :: rest, max_id, acc =>
    let d' := d.renumber_objects_with max_id
    let pagesMap := Table.extend []
      (d'.pages.map (fun id => (id, (Table.lookup d'.objects id).getD .null)))
    collectDocs rest (d'.maxId + 1) (Table.extend acc.1 pagesMap, Table.extend acc.2 d'.objects)

structure MergeState where
  catalog : Option (Nat × Obj)
  pagesObj : Option (Nat × Obj)
  out : Table

/-- One step of the first object pass of `merge_documents` (lines
434–478): a `Catalog` keeps the first id seen but takes the current
object as content; a `Pages` dictionary keeps the first id seen and
extends the current dictionary with the accumulated one; `Page`,
`Outlines` and `Outline` objects are skipped; everything else is inserted
into the output table unmodified. -/
def processEntry (st : MergeState) (e : Nat × Obj) : MergeState :=
  match (Obj.typeName e.2).getD "" with
  | "Catalog" =>
    let newId := match st.catalog with | some (id, _) => id | none => e.1
    { st with catalog := some (newId, e.2) }
  | "Pages" =>
    match Obj.as_dict e.2 with
    | some d =>
      let d' := match st.pagesObj with
        | some (_, o) =>
          match Obj.as_dict o with
          | some old => Dict.extend d old
          | none => d
        | none => d
      let newId := match st.pagesObj with | some (id, _) => id | none => e.1
      { st with pagesObj := some (newId, .dict d') }
    | none => st
  | "Page" => st
  | "Outlines" => st
  | "Outline" => st
  | _ => { st with out := Table.insert st.out e.1 e.2 }

/-- `merge_documents` after the first object pass (lines 480–541): abort
if no Pages-collection was found; re-parent and insert every collected
page; abort if no Catalog was found; rebuild the canonical
Pages-collection's `Count` and `Kids`; rebuild the canonical Catalog and
point the trailer's `Root` at it.  `dp` is `documents_pages`, `st` the
state after the object pass.  The boolean records whether the merge ran
to completion or aborted early (`Pages root not found.` / `Catalog root
not found.`), in which case `outdoc` keeps whatever was already inserted
and the final bookkeeping steps are skipped. -/
def mergeAfterScan (dp : Table) (st : MergeState) (outdoc : MDoc) : MDoc × Bool :=
  match st.pagesObj with
  | none => ({ outdoc with objects := st.out }, false)
  | some pagesPair =>
    let out2 := dp.foldl
      (fun t e =>
        match Obj.as_dict e.2 with
        | some d => Table.insert t e.1 (.dict (Dict.set d "Parent" (.ref pagesPair.1)))
        | none => t) st.out
    match st.catalog with
    | none => ({ outdoc with objects := out2 }, false)
    | some catPair =>
      let out3 :=
        match Obj.as_dict pagesPair.2 with
        | some d =>
          Table.insert out2 pagesPair.1
            (.dict (Dict.set (Dict.set d "Count" (.integer dp.length)) "Kids"
              (.array (dp.map (fun e => Obj.ref e.1)))))
        | none => out2
      let out4 :=
        match Obj.as_dict catPair.2 with
        | some d =>
          Table.insert out3 catPair.1
            (.dict (Dict.remove (Dict.set d "Pages" (.ref pagesPair.1)) "Outlines"))
        | none => out3
      ({ outdoc with
          objects := out4,
          trailer := Dict.set outdoc.trailer "Root" (.ref catPair.1) }, true)

/-- `merge_documents` up to setting the trailer root (lines 386–541):
collect and renumber all inputs, run the first object pass, then the
rebuild stage. -/
def merge_core (documents : List MDoc) (outdoc : MDoc) : MDoc × Bool :=
  let colls := collectDocs documents 1 ([], [])
  mergeAfterScan colls.1 (colls.2.foldl processEntry ⟨none, none, outdoc.objects⟩) outdoc

/-- Full `merge_documents`: after a completed core pass, `max_id` is
recomputed from the object count and the whole table renumbered
contiguously from 1 (lines 543–547).  The two bookmark passes that follow
(`adjust_zero_pages`, `build_outline`, lines 549–559) are collaborator
primitives modelled from the spec (§6): on a document carrying no
bookmark data `build_outline` returns `None` and `adjust_zero_pages` does
nothing, so on this model they are the identity. -/
def merge_documents (documents : List MDoc) (outdoc : MDoc) : MDoc :=
  let r := merge_core documents outdoc
  if r.2 then ({ r.1 with maxId := r.1.objects.length }).renumber_objects
  else r.1

/-- `Document::with_version("1.5")`: a fresh empty output document. -/
def emptyDoc : MDoc :=
  { objects := [], pages := [], trailer := [], maxId := 0 }

/-- A leaf page object carrying a distinguishing payload `N`. -/
def pageTagged (n : Int) : Obj := .dict [("Type", .name "Page"), ("N", .integer n)]

/-- A well-formed single-Catalog, single-Pages, two-page document whose
page objects' identifiers are *descending* in traversal order: the first
page of the document is object 4 (payload 1), the second is object 3
(payload 2). -/
def outOfOrderDoc : MDoc :=
  { objects :=
      [(1, .dict [("Type", .name "Catalog"), ("Pages", .ref 2)]),
       (2, .dict [("Type", .name "Pages"), ("Kids", .array [.ref 4, .ref 3]),
                  ("Count", .integer 2)]),
       (3, pageTagged 2),
       (4, pageTagged 1)],
    pages := [4, 3],
    trailer := [("Root", .ref 1)],
    maxId := 4 }

/-- A one-page document whose Catalog carries a distinguishing `Tag`. -/
def catTagDoc (t : Int) : MDoc :=
  { objects :=
      [(1, .dict [("Type", .name "Catalog"), ("Pages", .ref 2), ("Tag", .integer t)]),
       (2, .dict [("Type", .name "Pages"), ("Kids", .array [.ref 3]), ("Count", .integer 1)]),
       (3, .dict [("Type", .name "Page")])],
    pages := [3],
    trailer := [("Root", .ref 1)],
    maxId := 3 }

/-- The root Catalog of a document: follow the trailer's `Root` reference. -/
def rootCatalogDict (d : MDoc) : Option Dict :=
  match Dict.get d.trailer "Root" with
  | some (.ref r) =>
    match Table.lookup d.objects r with
    | some o => Obj.as_dict o
    | none => none
  | _ => none

/-- The root Catalog's `Tag` attribute. -/
def rootCatalogTag (d : MDoc) : Option Obj :=
  match rootCatalogDict d with
  | some cd => Dict.get cd "Tag"
  | none => none

/-- The `Kids` of the Pages-collection the root Catalog points at, as the
list of referenced object ids. -/
def mergedKidsIds (d : MDoc) : Option (List Nat) :=
  match rootCatalogDict d with
  | some cat =>
    match Dict.get cat "Pages" with
    | some (.ref p) =>
      match Table.lookup d.objects p with
      | some o =>
        match Obj.as_dict o with
        | some pd =>
          match Dict.get pd "Kids" with
          | some (.array ks) =>
            some (ks.map (fun k => match k with | .ref i => i | _ => 0))
          | _ => none
        | none => none
      | none => none
    | _ => none
  | none => none

/-- The `N` payloads of the pages referenced by the canonical `Kids`
array, in `Kids` order — an identifier-independent view of which page
ends up where. -/
def kidPayloads (d : MDoc) : Option (List (Option Obj)) :=
  (mergedKidsIds d).map (fun ids => ids.map (fun i =>
    match Table.lookup d.objects i with
    | some o =>
      match Obj.as_dict o with
      | some pd => Dict.get pd "N"
      | none => none
    | none => none))

/-! Characterizations of the object pass, used by the amended C1/C2
theorems.  `collectedPages`/`collectedObjects` name the two tables the
per-document loop accumulates, `mergeScan` the state after the first
object pass, on an empty output document. -/

def collectedPages (documents : List MDoc) : Table :=
  (collectDocs documents 1 ([], [])).1

def collectedObjects (documents : List MDoc) : Table :=
  (collectDocs documents 1 ([], [])).2

def mergeScan (documents : List MDoc) : MergeState :=
  (collectedObjects documents).foldl processEntry ⟨none, none, []⟩

/-- The catalog component of one `processEntry` step, in isolation. -/
def catStep (c : Option (Nat × Obj)) (e : Nat × Obj) : Option (Nat × Obj) :=
  if (Obj.typeName e.2).getD "" = "Catalog" then
    let i := match c with | some (id, _) => id | none => e.1
    some (i, e.2)
  else c

/-- The pages component of one `processEntry` step, in isolation. -/
def pagesStep (po : Option (Nat × Obj)) (e : Nat × Obj) : Option (Nat × Obj) :=
  if (Obj.typeName e.2).getD "" = "Pages" then
    match Obj.as_dict e.2 with
    | some d =>
      let d' := match po with
        | some (_, o) =>
          match Obj.as_dict o with
          | some old => Dict.extend d old
          | none => d
        | none => d
      let i := match po with | some (id, _) => id | none => e.1
      some (i, .dict d')
    | none => po
  else po

/-- The page re-parenting loop (lines 487–497) in isolation. -/
def pagesInserted (dp : Table) (base : Table) (pid : Nat) : Table :=
  dp.foldl
    (fun t e =>
      match Obj.as_dict e.2 with
      | some d => Table.insert t e.1 (.dict (Dict.set d "Parent" (.ref pid)))
      | none => t) base

/-- The rebuilt canonical Pages dictionary (lines 509–523): `Count` then
`Kids` overwritten from the collected page snapshot. -/
def rebuiltPagesDict (dp : Table) (d : Dict) : Dict :=
  Dict.set (Dict.set d "Count" (.integer dp.length)) "Kids"
    (.array (dp.map (fun e => Obj.ref e.1)))

/-- The `BTreeMap` invariants `merge_documents` relies on: table keys
ascending (always true of a `BTreeMap`), and — the C1 ordering
hypothesis — the document's leaf-page object ids ascending in traversal
order and present in its own table. -/
abbrev docWf (d : MDoc) : Prop :=
  List.Pairwise (· < ·) (d.objects.map Prod.fst) ∧
  List.Pairwise (· < ·) d.pages ∧
  ∀ p ∈ d.pages, p ∈ d.objects.map Prod.fst

/-- The page snapshot one input document contributes (line 418–424),
before its `BTreeMap` re-keying. -/
def pagesSnapshot (d' : MDoc) : Table :=
  d'.pages.map (fun id => (id, (Table.lookup d'.objects id).getD .null))

/-- What `documents_pages` accumulates, document block by document block. -/
def pagesPart : List MDoc → Nat → Table
  | [], _ => []
  | d :: rest, start =>
    let d' := d.renumber_objects_with start
    pagesSnapshot d' ++ pagesPart rest (d'.maxId + 1)

/-- What `documents_objects` accumulates, document block by document block. -/
def objsPart : List MDoc → Nat → Table
  | [], _ => []
  | d :: rest, start =>
    let d' := d.renumber_objects_with start
    d'.objects ++ objsPart rest (d'.maxId + 1)

/-- The renumbered leaf-page ids of all inputs, concatenated in input
order with each document's traversal order preserved — the list the
spec's step 5 describes. -/
def mergedPageIds : List MDoc → Nat → List Nat
  | [], _ => []
  | d :: rest, start =>
    let d' := d.renumber_objects_with start
    d'.pages ++ mergedPageIds rest (d'.maxId + 1)

theorem Dict.get_set_same (d : Dict) (k : String) (v : Obj) :
    Dict.get (Dict.set d k v) k = some v := by
  induction d with
  | nil => simp [Dict.set, Dict.get]
  | cons e rest ih =>
    by_cases h : e.1 = k
    · simp [Dict.set, Dict.get, h]
    · simp [Dict.set, Dict.get, h, ih]

theorem Dict.get_set_ne (d : Dict) (k k' : String) (v : Obj) (h : k ≠ k') :
    Dict.get (Dict.set d k v) k' = Dict.get d k' := by
  induction d with
  | nil => simp [Dict.set, Dict.get, h]
  | cons e rest ih =>
    by_cases he : e.1 = k
    · simp [Dict.set, Dict.get, he, h]
    · simp only [Dict.set, Dict.get, if_neg he]
      by_cases he' : e.1 = k' <;> simp [Dict.get, he', ih]

theorem Dict.set_set_same (d : Dict) (k : String) (v w : Obj) :
    Dict.set (Dict.set d k v) k w = Dict.set d k w := by
  induction d with
  | nil => simp [Dict.set]
  | cons e rest ih =>
    by_cases h : e.1 = k
    · simp [Dict.set, h]
    · simp [Dict.set, h, ih]

theorem Lopdf.delete_pages_all (doc : PageDoc) :
    Lopdf.delete_pages doc (List.range' 1 doc.length) = [] := by
  unfold Lopdf.delete_pages
  rw [List.filterMap_eq_nil]
  intro a ha
  have hmem : a.1 ∈ List.range' 1 doc.length := (List.mem_zip ha).1
  simp [hmem]

/-- C4: with an explicit list and `negate = true`, the selection is exactly
the complement `{1..total} \ explicit`; out-of-range values in the explicit
list have no effect on the result. -/
theorem c4_negated_explicit_is_complement (pages : List Nat) (doc : PageDoc) (x : Nat) :
    x ∈ make_pages_page_numbers pages doc true ↔
      1 ≤ x ∧ x ≤ doc.length ∧ x ∉ pages := by
  simp only [make_pages_page_numbers, if_pos, List.mem_filter, List.mem_range'_1,
    Bool.not_eq_true']
  constructor
  · rintro ⟨⟨h1, h2⟩, h3⟩
    exact ⟨h1, by omega, by simpa using h3⟩
  · rintro ⟨h1, h2, h3⟩
    exact ⟨⟨h1, by omega⟩, by simpa using h3⟩

/-- C5: for every document and every `e > 0`, the every-N selections
return only page numbers in `[1, total]`, and the `negate = false`
(divisible) and `negate = true` (not divisible) selections partition
`[1, total]`: every in-range page number is in exactly one of them. -/
theorem c5_every_selection_partitions (every : Nat) (doc : PageDoc) (h : 0 < every) :
    ∃ ldiv lnot,
      make_every_page_numbers every doc false = .ok ldiv ∧
      make_every_page_numbers every doc true = .ok lnot ∧
      (∀ x ∈ ldiv, 1 ≤ x ∧ x ≤ doc.length) ∧
      (∀ x ∈ lnot, 1 ≤ x ∧ x ≤ doc.length) ∧
      (∀ x, 1 ≤ x → x ≤ doc.length → (x ∈ ldiv ∨ x ∈ lnot)) ∧
      (∀ x, x ∈ ldiv → x ∈ lnot → False) := by
  have he : ¬(every = 0 ∧ doc.length ≠ 0) := by
    rintro ⟨h0, -⟩; omega
  refine ⟨(List.range' 1 doc.length).filter (fun p => p % every == 0),
    (List.range' 1 doc.length).filter (fun p => !(p % every == 0)), ?_, ?_, ?_, ?_, ?_, ?_⟩
  · unfold make_every_page_numbers
    rw [if_neg he]
    rfl
  · unfold make_every_page_numbers
    rw [if_neg he]
    rfl
  · intro x hx
    have := (List.mem_filter.mp hx).1
    rw [List.mem_range'_1] at this
    omega
  · intro x hx
    have := (List.mem_filter.mp hx).1
    rw [List.mem_range'_1] at this
    omega
  · intro x h1 h2
    have hx : x ∈ List.range' 1 doc.length := by
      rw [List.mem_range'_1]; omega
    by_cases hc : x % every = 0
    · exact Or.inl (List.mem_filter.mpr ⟨hx, by simp [hc]⟩)
    · exact Or.inr (List.mem_filter.mpr ⟨hx, by simp [hc]⟩)
  · intro x hx hy
    have h1 := (List.mem_filter.mp hx).2
    have h2 := (List.mem_filter.mp hy).2
    simp at h1 h2
    exact h2 h1

theorem c5_witness :
    ∃ ldiv lnot,
      make_every_page_numbers 2 threePages false = .ok ldiv ∧
      make_every_page_numbers 2 threePages true = .ok lnot ∧
      (∀ x ∈ ldiv, 1 ≤ x ∧ x ≤ threePages.length) ∧
      (∀ x ∈ lnot, 1 ≤ x ∧ x ≤ threePages.length) ∧
      (∀ x, 1 ≤ x → x ≤ threePages.length → (x ∈ ldiv ∨ x ∈ lnot)) ∧
      (∀ x, x ∈ ldiv → x ∈ lnot → False) :=
  c5_every_selection_partitions 2 threePages (by decide)

/-- C10 counterexample: with an explicit list and `negate = false` the
selection is the caller's list verbatim, so a duplicated page number
survives into the selection — it is not always a set. -/
theorem c10_counterexample :
    make_pages_page_numbers [2, 2] threePages false = [2, 2] ∧
      ¬ ([2, 2] : List Nat).Nodup :=
  ⟨rfl, by decide⟩

/-- C10 amended: the negated explicit selection and both every-N
selections are duplicate-free, but the non-negated explicit selection is
returned verbatim and may contain duplicates. -/
theorem c10_amended_selection_duplicates :
    (∀ pages doc, (make_pages_page_numbers pages doc true).Nodup) ∧
    (∀ e doc negate l, make_every_page_numbers e doc negate = .ok l → l.Nodup) ∧
    (∀ pages doc, make_pages_page_numbers pages doc false = pages) := by
  refine ⟨?_, ?_, ?_⟩
  · intro pages doc
    exact (List.nodup_range' 1 doc.length).filter _
  · intro e doc negate l hl
    unfold make_every_page_numbers at hl
    split at hl
    · exact absurd hl (by simp)
    · have := Except.ok.inj hl
      subst this
      cases negate <;> exact (List.nodup_range' 1 doc.length).filter _
  · intro pages doc
    rfl

theorem c10_witness : ([2] : List Nat).Nodup :=
  c10_amended_selection_duplicates.2.1 2 threePages false [2] rfl

/-- C8: the code never rejects `every = 0`.  `main.rs` passes the flag
straight to `utils::delete`, which reaches `make_every_page_numbers` with
`every = 0` and evaluates `page_num % 0` on the first page — a
divide-by-zero panic, not a prior `SelectionInputError` rejection. -/
theorem c8_every_zero_reaches_selection :
    delete [[]] none (some 0) false =
      .error "attempt to calculate the remainder with a divisor of zero" ∧
    make_every_page_numbers 0 [[]] false =
      .error "attempt to calculate the remainder with a divisor of zero" :=
  ⟨rfl, rfl⟩

/-- C6: `extract_pages` is exactly `delete_pages` with the selection
pre-negated (`negate` hardwired to `true`); extracting `every = 2` from a
six-page document keeps pages 2, 4, 6 in original order, renumbered by
position. -/
theorem c6_extract_is_negated_delete :
    (∀ doc pages every, extract_pages doc pages every = delete_pages doc pages every true) ∧
    extract sixDoc none (some 2) = .ok [pageN 2, pageN 4, pageN 6] := by
  constructor
  · intro doc pages every
    cases pages <;> cases every <;> rfl
  · rfl

/-- C3: a result document with zero leaf pages is never written:
`save_pdf` fails with the empty-result panic before reaching the file
write, and deleting every page of any document therefore fails with that
error and produces no output. -/
theorem c3_empty_result_never_written :
    (∀ doc : PageDoc, doc.length = 0 →
      save_pdf doc = .error "Resulting document would have no pages.") ∧
    (∀ doc : PageDoc, delete doc (some (List.range' 1 doc.length)) none false =
      .error "Resulting document would have no pages.") := by
  constructor
  · intro doc h
    simp [save_pdf, h]
  · intro doc
    show (delete_pages doc _ _ _).bind save_pdf = _
    simp only [delete_pages, make_pages_page_numbers, if_neg (by simp : ¬(false = true)),
      Lopdf.delete_pages_all]
    rfl

theorem c3_witness :
    save_pdf ([] : PageDoc) = Except.error "Resulting document would have no pages." :=
  c3_empty_result_never_written.1 [] rfl

theorem rotateStep_getElem? (deg : Int) (d : PageDoc) (p i : Nat) :
    (rotateStep deg d p)[i]? =
      if p = i + 1 then (d[i]?).map (fun pg => Dict.set pg "Rotate" (.integer deg))
      else d[i]? := by
  unfold rotateStep
  by_cases hp : p = 0
  · subst hp
    simp
  · rw [if_neg hp]
    cases hde : d[p - 1]? with
    | none =>
      by_cases hpi : p = i + 1
      · have hi : p - 1 = i := by omega
        rw [hi] at hde
        simp [hpi, hde]
      · simp [hpi]
    | some pg =>
      by_cases hpi : p = i + 1
      · have hi : p - 1 = i := by omega
        rw [hi] at hde
        have hlen : i < d.length := (List.getElem?_eq_some_iff.mp hde).1
        rw [hi, if_pos hpi, List.getElem?_set_eq hlen, hde]
        rfl
      · have hi : p - 1 ≠ i := by omega
        rw [if_neg hpi, List.getElem?_set_ne hi]

theorem rotate_select_pages_getElem? (doc : PageDoc) (nums : List Nat) (deg : Int) (i : Nat) :
    (rotate_select_pages doc nums deg)[i]? =
      if nums.contains (i + 1) then
        (doc[i]?).map (fun pg => Dict.set pg "Rotate" (.integer deg))
      else doc[i]? := by
  induction nums generalizing doc with
  | nil => simp [rotate_select_pages]
  | cons p rest ih =>
    have hstep : rotate_select_pages doc (p :: rest) deg =
        rotate_select_pages (rotateStep deg doc p) rest deg := rfl
    rw [hstep, ih, rotateStep_getElem?, List.contains_cons]
    by_cases hpi : p = i + 1
    · have hbeq : (i + 1 == p) = true := by simp [hpi]
      have hcol :
          Option.map (fun pg => Dict.set pg "Rotate" (Obj.integer deg))
              (Option.map (fun pg => Dict.set pg "Rotate" (Obj.integer deg)) doc[i]?) =
            Option.map (fun pg => Dict.set pg "Rotate" (Obj.integer deg)) doc[i]? := by
        cases doc[i]? <;> simp [Dict.set_set_same]
      rw [if_pos hpi]
      by_cases hr : rest.contains (i + 1) = true
      · rw [if_pos hr, hcol]
        simp [hbeq]
      · rw [if_neg hr]
        simp [hbeq]
    · have hbeq : (i + 1 == p) = false := by simp; omega
      rw [if_neg hpi]
      simp [hbeq]

/-- C7: `rotate_select_pages` overwrites the `Rotate` entry of exactly the
targeted in-range pages with the supplied degree value (absolute, not
added), leaves every other page untouched, silently skips selected numbers
with no corresponding page, `rotate_all_pages` does the same for all
pages, a written rotation reads back as the degree value, and rotating
pages {2,4} of a 5-page document (no prior `Rotate`, read back as 0) by 90
yields rotations [0, 90, 0, 90, 0]. -/
theorem c7_rotate_is_absolute_overwrite :
    (∀ (doc : PageDoc) (nums : List Nat) (deg : Int) (i : Nat),
      (rotate_select_pages doc nums deg)[i]? =
        if nums.contains (i + 1) then
          (doc[i]?).map (fun pg => Dict.set pg "Rotate" (.integer deg))
        else doc[i]?) ∧
    (∀ (doc : PageDoc) (deg : Int) (i : Nat),
      (rotate_all_pages doc deg)[i]? =
        (doc[i]?).map (fun pg => Dict.set pg "Rotate" (.integer deg))) ∧
    (∀ (pg : Dict) (deg : Int), getRotate (Dict.set pg "Rotate" (.integer deg)) = deg) ∧
    (rotate_select_pages (List.replicate 5 []) [2, 4] 90).map getRotate = [0, 90, 0, 90, 0] := by
  refine ⟨rotate_select_pages_getElem?, ?_, ?_, rfl⟩
  · intro doc deg i
    exact List.getElem?_map _ doc i
  · intro pg deg
    simp [getRotate, Dict.get_set_same]

/-- C9 counterexample: a Pages-collection whose `Kids` attribute is
present but not an array is not left untouched — the reversal scan panics
(`as_array().unwrap()`), a fatal error, contradicting the claim that the
condition is never fatal. -/
theorem c9_counterexample :
    reverse_doc_scan badKidsTable = .error "called Result::unwrap on an Err value: Type" ∧
      reverse_doc_scan badKidsTable ≠ .ok badKidsTable := by
  constructor
  · rfl
  · intro h
    rw [show reverse_doc_scan badKidsTable =
      .error "called Result::unwrap on an Err value: Type" from rfl] at h
    exact Except.noConfusion h

/-- C9 amended: during reversal, a Pages-collection with an array `Kids`
has it reversed in place, one with a *missing* `Kids` is left untouched
and not treated as an error (logged only), non-Pages objects are left
untouched — but a Pages-collection whose `Kids` is present and not an
array makes the whole reversal fail fatally (an unwrap panic). -/
theorem c9_amended_reverse_kids_handling :
    (∀ (id : Nat) (d : Dict) (arr : List Obj),
      Obj.typeName (.dict d) = some "Pages" → Dict.get d "Kids" = some (.array arr) →
      reverseStep (id, .dict d) = .ok (id, .dict (Dict.set d "Kids" (.array arr.reverse)))) ∧
    (∀ (id : Nat) (d : Dict),
      Obj.typeName (.dict d) = some "Pages" → Dict.get d "Kids" = none →
      reverseStep (id, .dict d) = .ok (id, .dict d)) ∧
    (∀ e : Nat × Obj, (Obj.typeName e.2).getD "" ≠ "Pages" → reverseStep e = .ok e) ∧
    (∀ (id : Nat) (d : Dict) (k : Obj),
      Obj.typeName (.dict d) = some "Pages" → Dict.get d "Kids" = some k →
      (∀ arr, k ≠ .array arr) →
      reverseStep (id, .dict d) = .error "called Result::unwrap on an Err value: Type") ∧
    (∀ (objects : Table) (e : Nat × Obj) (msg : String),
      e ∈ objects → reverseStep e = .error msg →
      ∃ msg', reverse_doc_scan objects = .error msg') := by
  refine ⟨?_, ?_, ?_, ?_, ?_⟩
  · intro id d arr ht hk
    simp [reverseStep, ht, hk, Obj.as_dict]
  · intro id d ht hk
    simp [reverseStep, ht, hk, Obj.as_dict]
  · intro e ht
    simp [reverseStep, ht]
  · intro id d k ht hk hna
    cases k with
    | array arr => exact absurd rfl (hna arr)
    | null => simp [reverseStep, ht, hk, Obj.as_dict]
    | boolean b => simp [reverseStep, ht, hk, Obj.as_dict]
    | integer n => simp [reverseStep, ht, hk, Obj.as_dict]
    | name s => simp [reverseStep, ht, hk, Obj.as_dict]
    | str s => simp [reverseStep, ht, hk, Obj.as_dict]
    | dict entries => simp [reverseStep, ht, hk, Obj.as_dict]
    | stream entries => simp [reverseStep, ht, hk, Obj.as_dict]
    | ref i => simp [reverseStep, ht, hk, Obj.as_dict]
  · intro objects e msg
    induction objects with
    | nil =>
      intro he _
      exact absurd he (List.not_mem_nil e)
    | cons x xs ih =>
      intro he herr
      cases hx : reverseStep x with
      | error m =>
        refine ⟨m, ?_⟩
        simp only [reverse_doc_scan, hx]
        rfl
      | ok y =>
        rcases List.mem_cons.mp he with he' | he'
        · rw [he'] at herr
          rw [hx] at herr
          exact Except.noConfusion herr
        · obtain ⟨m', hm'⟩ := ih he' herr
          refine ⟨m', ?_⟩
          simp only [reverse_doc_scan, hx, hm']
          rfl

/-- C1 counterexample: merging `[outOfOrderDoc]` (original page order:
payloads `[1, 2]`) produces a `Kids` array whose referenced pages carry
payloads `[2, 1]` — `merge_documents` re-keys the page snapshot by object
id in a `BTreeMap`, so a document whose page identifiers are not
ascending in traversal order does *not* keep its original in-document
page order in the rebuilt `Kids`. -/
theorem c1_counterexample :
    kidPayloads (merge_documents [outOfOrderDoc] emptyDoc) =
      some [some (.integer 2), some (.integer 1)] ∧
    (kidPayloads (merge_documents [outOfOrderDoc] emptyDoc) ≠
      some [some (.integer 1), some (.integer 2)]) ∧
    (outOfOrderDoc.pages.map
      (fun i => (Table.lookup outOfOrderDoc.objects i).bind
        (fun o => (Obj.as_dict o).bind (fun pd => Dict.get pd "N")))) =
      [some (.integer 1), some (.integer 2)] := by
  refine ⟨rfl, ?_, rfl⟩
  intro h
  rw [show kidPayloads (merge_documents [outOfOrderDoc] emptyDoc) =
    some [some (.integer 2), some (.integer 1)] from rfl] at h
  simp at h

theorem processEntry_catalog (st : MergeState) (e : Nat × Obj) :
    (processEntry st e).catalog = catStep st.catalog e := by
  by_cases hc : (Obj.typeName e.2).getD "" = "Catalog"
  · simp [processEntry, catStep, hc]
  · by_cases hp : (Obj.typeName e.2).getD "" = "Pages"
    · cases had : Obj.as_dict e.2 <;> simp [processEntry, catStep, hp, had, hc]
    · simp only [catStep, if_neg hc]
      unfold processEntry
      split <;> simp_all

theorem processEntry_pagesObj (st : MergeState) (e : Nat × Obj) :
    (processEntry st e).pagesObj = pagesStep st.pagesObj e := by
  by_cases hp : (Obj.typeName e.2).getD "" = "Pages"
  · cases had : Obj.as_dict e.2 <;> simp [processEntry, pagesStep, hp, had]
  · by_cases hc : (Obj.typeName e.2).getD "" = "Catalog"
    · simp [processEntry, pagesStep, hc, hp]
    · simp only [pagesStep, if_neg hp]
      unfold processEntry
      split <;> simp_all

theorem foldl_processEntry_catalog (l : Table) (st : MergeState) :
    (l.foldl processEntry st).catalog = l.foldl catStep st.catalog := by
  induction l generalizing st with
  | nil => rfl
  | cons e rest ih =>
    simp only [List.foldl_cons]
    rw [ih, processEntry_catalog]

theorem foldl_processEntry_pagesObj (l : Table) (st : MergeState) :
    (l.foldl processEntry st).pagesObj = l.foldl pagesStep st.pagesObj := by
  induction l generalizing st with
  | nil => rfl
  | cons e rest ih =>
    simp only [List.foldl_cons]
    rw [ih, processEntry_pagesObj]

/-- Once a catalog has been collected, its identifier never changes and
its content is overwritten by every later catalog: the fold result keeps
the initial id and takes the content of the *last* catalog entry. -/
theorem foldl_catStep_some (l : Table) (i : Nat) (o : Obj) :
    l.foldl catStep (some (i, o)) =
      some (i, (((l.filter (fun e => decide ((Obj.typeName e.2).getD "" = "Catalog"))).getLast?).map
        Prod.snd).getD o) := by
  induction l generalizing o with
  | nil => rfl
  | cons e rest ih =>
    by_cases hc : (Obj.typeName e.2).getD "" = "Catalog"
    · simp only [List.foldl_cons, catStep, if_pos hc]
      rw [ih]
      rw [List.filter_cons_of_pos (by simp [hc])]
      cases hf : rest.filter (fun e => decide ((Obj.typeName e.2).getD "" = "Catalog")) with
      | nil => simp
      | cons y ys =>
        obtain ⟨z, hz⟩ := Option.isSome_iff_exists.mp
          (List.getLast?_isSome.mpr (by simp) : ((y :: ys).getLast?).isSome = true)
        simp [List.getLast?_cons_cons, hz]
    · simp only [List.foldl_cons, catStep, if_neg hc]
      rw [ih, List.filter_cons_of_neg (by simp [hc])]

/-- The first object pass collects: the first catalog entry's id and the
last catalog entry's content (or nothing if there is no catalog). -/
theorem foldl_catStep_none (l : Table) :
    l.foldl catStep none =
      (l.find? (fun e => decide ((Obj.typeName e.2).getD "" = "Catalog"))).map
        (fun fc => (fc.1,
          ((((l.filter (fun e => decide ((Obj.typeName e.2).getD "" = "Catalog"))).getLast?).map
            Prod.snd).getD fc.2))) := by
  induction l with
  | nil => rfl
  | cons e rest ih =>
    by_cases hc : (Obj.typeName e.2).getD "" = "Catalog"
    · simp only [List.foldl_cons, catStep, if_pos hc]
      rw [foldl_catStep_some]
      rw [List.find?_cons_of_pos _ (by simp [hc]), List.filter_cons_of_pos (by simp [hc])]
      cases hf : rest.filter (fun e => decide ((Obj.typeName e.2).getD "" = "Catalog")) with
      | nil => simp
      | cons y ys =>
        obtain ⟨z, hz⟩ := Option.isSome_iff_exists.mp
          (List.getLast?_isSome.mpr (by simp) : ((y :: ys).getLast?).isSome = true)
        simp [List.getLast?_cons_cons, hz]
    · simp only [List.foldl_cons, catStep, if_neg hc]
      rw [ih, List.find?_cons_of_neg _ (by simp [hc]), List.filter_cons_of_neg (by simp [hc])]

/-- A collected Pages object keeps its id and stays a dictionary. -/
theorem foldl_pagesStep_some_dict (l : Table) (i : Nat) (pd : Dict) :
    ∃ pd', l.foldl pagesStep (some (i, .dict pd)) = some (i, .dict pd') := by
  induction l generalizing pd with
  | nil => exact ⟨pd, rfl⟩
  | cons e rest ih =>
    simp only [List.foldl_cons]
    by_cases hp : (Obj.typeName e.2).getD "" = "Pages"
    · cases had : Obj.as_dict e.2 with
      | none =>
        simp only [pagesStep, if_pos hp, had]
        exact ih pd
      | some d =>
        simp only [pagesStep, if_pos hp, had]
        exact ih (Dict.extend d pd)
    · simp only [pagesStep, if_neg hp]
      exact ih pd

/-- Either no Pages dictionary occurs and nothing is collected, or the
collected Pages object is keyed by the id of some Pages-dictionary entry
and its content is a dictionary. -/
theorem foldl_pagesStep_none (l : Table) :
    (l.foldl pagesStep none = none ∧
      ∀ e ∈ l, ¬((Obj.typeName e.2).getD "" = "Pages" ∧ (Obj.as_dict e.2).isSome)) ∨
    (∃ pid pd', l.foldl pagesStep none = some (pid, .dict pd') ∧
      ∃ o, (pid, o) ∈ l ∧ (Obj.typeName o).getD "" = "Pages" ∧ (Obj.as_dict o).isSome) := by
  induction l with
  | nil => exact Or.inl ⟨rfl, by simp⟩
  | cons e rest ih =>
    by_cases hp : (Obj.typeName e.2).getD "" = "Pages"
    · cases had : Obj.as_dict e.2 with
      | none =>
        simp only [List.foldl_cons, pagesStep, if_pos hp, had]
        rcases ih with ⟨h1, h2⟩ | ⟨pid, pd', h1, o, ho, h2, h3⟩
        · refine Or.inl ⟨h1, ?_⟩
          intro x hx
          rcases List.mem_cons.mp hx with hx' | hx'
          · subst hx'
            rintro ⟨-, hs⟩
            rw [had] at hs
            exact absurd hs (by simp)
          · exact h2 x hx'
        · exact Or.inr ⟨pid, pd', h1, o, List.mem_cons_of_mem e ho, h2, h3⟩
      | some d =>
        simp only [List.foldl_cons, pagesStep, if_pos hp, had]
        obtain ⟨pd', hpd'⟩ := foldl_pagesStep_some_dict rest e.1 d
        exact Or.inr ⟨e.1, pd', hpd', e.2, by simp, hp, by rw [had]; rfl⟩
    · simp only [List.foldl_cons, pagesStep, if_neg hp]
      rcases ih with ⟨h1, h2⟩ | ⟨pid, pd', h1, o, ho, h2, h3⟩
      · refine Or.inl ⟨h1, ?_⟩
        intro x hx
        rcases List.mem_cons.mp hx with hx' | hx'
        · subst hx'
          rintro ⟨hs, -⟩
          exact hp hs
        · exact h2 x hx'
      · exact Or.inr ⟨pid, pd', h1, o, List.mem_cons_of_mem e ho, h2, h3⟩

theorem Table.lookup_insert_same (m : Table) (k : Nat) (v : Obj) :
    Table.lookup (Table.insert m k v) k = some v := by
  induction m with
  | nil => simp [Table.insert, Table.lookup]
  | cons e rest ih =>
    by_cases h1 : k < e.1
    · simp [Table.insert, Table.lookup, h1]
    · by_cases h2 : k = e.1
      · simp [Table.insert, Table.lookup, h1, h2]
      · have : e.1 ≠ k := fun h => h2 h.symm
        simp [Table.insert, Table.lookup, h1, h2, this, ih]

theorem Table.lookup_insert_ne (m : Table) (k k' : Nat) (v : Obj) (h : k' ≠ k) :
    Table.lookup (Table.insert m k v) k' = Table.lookup m k' := by
  have hk : ¬(k = k') := fun hh => h hh.symm
  induction m with
  | nil => simp [Table.insert, Table.lookup, hk]
  | cons e rest ih =>
    simp only [Table.insert]
    by_cases h1 : k < e.1
    · rw [if_pos h1]
      simp only [Table.lookup]
      rw [if_neg hk]
    · rw [if_neg h1]
      by_cases h2 : k = e.1
      · rw [if_pos h2]
        simp only [Table.lookup]
        rw [if_neg hk, if_neg (show ¬(e.1 = k') from h2 ▸ hk)]
      · rw [if_neg h2]
        simp only [Table.lookup]
        by_cases h3 : e.1 = k'
        · rw [if_pos h3, if_pos h3]
        · rw [if_neg h3, if_neg h3]
          exact ih

/-- When the object pass found both roots, the rebuild stage runs to
completion: pages re-parented, canonical Pages rebuilt, canonical Catalog
rebuilt, trailer root set. -/
theorem mergeAfterScan_some (dp : Table) (st : MergeState) (outdoc : MDoc)
    (pid cid : Nat) (po co : Obj)
    (hp : st.pagesObj = some (pid, po)) (hc : st.catalog = some (cid, co)) :
    mergeAfterScan dp st outdoc =
      ({ outdoc with
          objects :=
            (let out2 := pagesInserted dp st.out pid
             let out3 := match Obj.as_dict po with
               | some d => Table.insert out2 pid (.dict (rebuiltPagesDict dp d))
               | none => out2
             match Obj.as_dict co with
             | some d =>
               Table.insert out3 cid
                 (.dict (Dict.remove (Dict.set d "Pages" (.ref pid)) "Outlines"))
             | none => out3),
          trailer := Dict.set outdoc.trailer "Root" (.ref cid) }, true) := by
  unfold mergeAfterScan
  rw [hp, hc]
  rfl

/-- C2 amended: when the merge completes, the trailer's root points at
the id of the *first* Catalog encountered (ascending renumbered-id order,
i.e. input order), but the object stored there is the content of the
*last* Catalog encountered — each later Catalog's content replaces the
collected one — with its `Pages` entry redirected to the canonical
Pages-collection and `Outlines` removed. -/
theorem c2_amended_first_id_last_content (documents : List MDoc)
    (hpages : ∃ e ∈ collectedObjects documents,
      (Obj.typeName e.2).getD "" = "Pages" ∧ (Obj.as_dict e.2).isSome)
    (fc lc : Nat × Obj) (lastD : Dict)
    (hfirst : (collectedObjects documents).find?
      (fun e => decide ((Obj.typeName e.2).getD "" = "Catalog")) = some fc)
    (hlast : ((collectedObjects documents).filter
      (fun e => decide ((Obj.typeName e.2).getD "" = "Catalog"))).getLast? = some lc)
    (hlastD : lc.2 = .dict lastD) :
    Dict.get (merge_core documents emptyDoc).1.trailer "Root" = some (.ref fc.1) ∧
    ∃ pid, (mergeScan documents).pagesObj.map Prod.fst = some pid ∧
      Table.lookup (merge_core documents emptyDoc).1.objects fc.1 =
        some (.dict (Dict.remove (Dict.set lastD "Pages" (.ref pid)) "Outlines")) := by
  have hcat : (mergeScan documents).catalog = some (fc.1, lc.2) := by
    rw [show (mergeScan documents).catalog =
      (collectedObjects documents).foldl catStep none from
        foldl_processEntry_catalog (collectedObjects documents) ⟨none, none, []⟩]
    rw [foldl_catStep_none, hfirst, hlast]
    rfl
  rcases foldl_pagesStep_none (collectedObjects documents) with
    ⟨h1, h2⟩ | ⟨pid, pd', h1, o, ho, hto, hdo⟩
  · obtain ⟨e, he, hP⟩ := hpages
    exact absurd hP (h2 e he)
  · have hpo : (mergeScan documents).pagesObj = some (pid, .dict pd') := by
      rw [show (mergeScan documents).pagesObj =
        (collectedObjects documents).foldl pagesStep none from
          foldl_processEntry_pagesObj (collectedObjects documents) ⟨none, none, []⟩]
      exact h1
    have hms : merge_core documents emptyDoc =
        mergeAfterScan (collectedPages documents) (mergeScan documents) emptyDoc := rfl
    rw [hms, mergeAfterScan_some _ _ _ pid fc.1 (.dict pd') lc.2 hpo hcat]
    refine ⟨rfl, pid, by rw [hpo]; rfl, ?_⟩
    rw [hlastD]
    exact Table.lookup_insert_same _ _ _

/-! Machinery for the amended C1 theorem: renumbering preserves object
shape, the per-document collection loop concatenates disjoint ascending
id blocks, and the `BTreeMap` extends therefore reduce to appends. -/

theorem Dict.get_renumberEntries (f : Nat → Nat) (d : Dict) (k : String) :
    Dict.get (Obj.renumberEntries f d) k = (Dict.get d k).map (Obj.renumber f) := by
  induction d with
  | nil => rfl
  | cons e rest ih =>
    obtain ⟨k', v⟩ := e
    simp only [Obj.renumberEntries, Dict.get]
    by_cases h : k' = k
    · rw [if_pos h, if_pos h]
      rfl
    · rw [if_neg h, if_neg h, ih]

theorem Obj.typeName_renumber (f : Nat → Nat) (o : Obj) :
    Obj.typeName (Obj.renumber f o) = Obj.typeName o := by
  cases o with
  | dict entries =>
    simp only [Obj.renumber, Obj.typeName]
    rw [Dict.get_renumberEntries]
    cases hg : Dict.get entries "Type" with
    | none => rfl
    | some o' => cases o' <;> rfl
  | stream entries =>
    simp only [Obj.renumber, Obj.typeName]
    rw [Dict.get_renumberEntries]
    cases hg : Dict.get entries "Type" with
    | none => rfl
    | some o' => cases o' <;> rfl
  | null => rfl
  | boolean b => rfl
  | integer n => rfl
  | name s => rfl
  | str s => rfl
  | array xs => rfl
  | ref i => rfl

theorem Obj.as_dict_renumber (f : Nat → Nat) (o : Obj) :
    Obj.as_dict (Obj.renumber f o) = (Obj.as_dict o).map (Obj.renumberEntries f) := by
  cases o <;> rfl

theorem tagFrom_map_fst (os : List Obj) : ∀ start : Nat,
    (tagFrom start os).map Prod.fst = List.range' start os.length := by
  induction os with
  | nil => intro start; rfl
  | cons o rest ih =>
    intro start
    simp only [tagFrom, List.map_cons, List.length_cons, List.range'_succ, ih]

theorem tagFrom_mem_of_mem (os : List Obj) : ∀ (start : Nat) (o : Obj), o ∈ os →
    ∃ k, (k, o) ∈ tagFrom start os := by
  induction os with
  | nil => intro start o ho; cases ho
  | cons o' rest ih =>
    intro start o ho
    rcases List.mem_cons.mp ho with h | h
    · exact ⟨start, by rw [h]; exact List.mem_cons_self _ _⟩
    · obtain ⟨k, hk⟩ := ih (start + 1) o h
      exact ⟨k, List.mem_cons_of_mem _ hk⟩

theorem renumberMap_bound (keys : List Nat) : ∀ (start a : Nat), a ∈ keys →
    start ≤ renumberMap start keys a ∧ renumberMap start keys a < start + keys.length := by
  induction keys with
  | nil => intro start a ha; cases ha
  | cons k rest ih =>
    intro start a ha
    by_cases h : a = k
    · simp only [renumberMap, if_pos h, List.length_cons]
      omega
    · have ha' : a ∈ rest := by
        rcases List.mem_cons.mp ha with h' | h'
        · exact absurd h' h
        · exact h'
      have := ih (start + 1) a ha'
      simp only [renumberMap, if_neg h, List.length_cons]
      omega

theorem renumberMap_lt (keys : List Nat) : ∀ (start a b : Nat),
    List.Pairwise (· < ·) keys → a ∈ keys → b ∈ keys → a < b →
    renumberMap start keys a < renumberMap start keys b := by
  induction keys with
  | nil => intro start a b _ ha; cases ha
  | cons k rest ih =>
    intro start a b hs ha hb hab
    obtain ⟨hk, hrest⟩ := List.pairwise_cons.mp hs
    by_cases haK : a = k
    · have hbK : ¬(b = k) := by
        intro hh
        rw [haK, hh] at hab
        exact lt_irrefl _ hab
      have hb' : b ∈ rest := by
        rcases List.mem_cons.mp hb with h' | h'
        · exact absurd h' hbK
        · exact h'
      simp only [renumberMap, if_pos haK, if_neg hbK]
      exact lt_of_lt_of_le (Nat.lt_succ_self start) (renumberMap_bound rest (start + 1) b hb').1
    · have ha' : a ∈ rest := by
        rcases List.mem_cons.mp ha with h' | h'
        · exact absurd h' haK
        · exact h'
      have hbK : ¬(b = k) := by
        intro hh
        have := hk a ha'
        omega
      have hb' : b ∈ rest := by
        rcases List.mem_cons.mp hb with h' | h'
        · exact absurd h' hbK
        · exact h'
      simp only [renumberMap, if_neg haK, if_neg hbK]
      exact ih (start + 1) a b hrest ha' hb' hab

theorem Table.insert_append_of_lt (m : Table) (k : Nat) (v : Obj)
    (h : ∀ e ∈ m, e.1 < k) : Table.insert m k v = m ++ [(k, v)] := by
  induction m with
  | nil => rfl
  | cons e rest ih =>
    have he := h e (List.mem_cons_self e rest)
    simp only [Table.insert]
    rw [if_neg (by omega), if_neg (by omega)]
    rw [ih (fun x hx => h x (List.mem_cons_of_mem e hx))]
    rfl

theorem Table.extend_append (xs : Table) : ∀ m : Table,
    (∀ e ∈ m, ∀ x ∈ xs, e.1 < x.1) →
    List.Pairwise (fun a b => a.1 < b.1) xs →
    Table.extend m xs = m ++ xs := by
  induction xs with
  | nil =>
    intro m _ _
    simp [Table.extend]
  | cons x rest ih =>
    intro m h hs
    obtain ⟨hx, hrest⟩ := List.pairwise_cons.mp hs
    have hstep : Table.extend m (x :: rest) = Table.extend (Table.insert m x.1 x.2) rest := rfl
    rw [hstep, Table.insert_append_of_lt m x.1 x.2
      (fun e he => h e he x (List.mem_cons_self _ _))]
    have hcross : ∀ e ∈ m ++ [x], ∀ y ∈ rest, e.1 < y.1 := by
      intro e he y hy
      rcases List.mem_append.mp he with h' | h'
      · exact h e h' y (List.mem_cons_of_mem _ hy)
      · rw [List.mem_singleton.mp h']
        exact hx y hy
    rw [ih (m ++ [x]) hcross hrest]
    simp

theorem Table.key_functional (l : Table) (hs : List.Pairwise (fun a b => a.1 < b.1) l)
    (k : Nat) (a b : Obj) (ha : (k, a) ∈ l) (hb : (k, b) ∈ l) : a = b := by
  induction l with
  | nil => cases ha
  | cons e rest ih =>
    obtain ⟨he, hrest⟩ := List.pairwise_cons.mp hs
    rcases List.mem_cons.mp ha with ha' | ha' <;> rcases List.mem_cons.mp hb with hb' | hb'
    · rw [← ha'] at hb'
      exact congrArg Prod.snd hb'.symm
    · exfalso
      have := he _ hb'
      rw [← ha'] at this
      exact lt_irrefl _ this
    · exfalso
      have := he _ ha'
      rw [← hb'] at this
      exact lt_irrefl _ this
    · exact ih hrest ha' hb'

theorem MDoc.renumber_keys (d : MDoc) (start : Nat) :
    (d.renumber_objects_with start).objects.map Prod.fst =
      List.range' start d.objects.length := by
  show (tagFrom start (d.objects.map _)).map Prod.fst = _
  rw [tagFrom_map_fst, List.length_map]

theorem pagesSnapshot_map_fst (d' : MDoc) :
    (pagesSnapshot d').map Prod.fst = d'.pages := by
  simp only [pagesSnapshot, List.map_map]
  exact List.map_id d'.pages

theorem renumbered_pages_facts (d : MDoc) (start : Nat) (hwf : docWf d) :
    List.Pairwise (· < ·) (d.renumber_objects_with start).pages ∧
    ∀ q ∈ (d.renumber_objects_with start).pages,
      start ≤ q ∧ q < start + d.objects.length := by
  obtain ⟨hkeys, hpages, hsub⟩ := hwf
  constructor
  · show List.Pairwise _ (d.pages.map _)
    rw [List.pairwise_map]
    refine hpages.imp_of_mem ?_
    intro a b ha hb hab
    exact renumberMap_lt _ start a b hkeys (hsub a ha) (hsub b hb) hab
  · intro q hq
    obtain ⟨p, hp, rfl⟩ := List.mem_map.mp hq
    have hb := renumberMap_bound _ start p (hsub p hp)
    rwa [List.length_map] at hb

theorem renumber_maxId_succ (d : MDoc) (start : Nat) (hstart : 1 ≤ start) :
    (d.renumber_objects_with start).maxId + 1 = start + d.objects.length := by
  show start + d.objects.length - 1 + 1 = _
  omega

theorem mergedPageIds_length (docs : List MDoc) : ∀ start : Nat,
    (mergedPageIds docs start).length = (docs.map (fun d => d.pages.length)).sum := by
  induction docs with
  | nil => intro start; rfl
  | cons d rest ih =>
    intro start
    simp only [mergedPageIds, List.length_append, List.map_cons, List.sum_cons, ih]
    show (d.pages.map _).length + _ = _
    rw [List.length_map]

theorem objsPart_facts (docs : List MDoc) : ∀ start : Nat, 1 ≤ start →
    List.Pairwise (fun a b => a.1 < b.1) (objsPart docs start) ∧
    ∀ e ∈ objsPart docs start, start ≤ e.1 := by
  induction docs with
  | nil =>
    intro start _
    exact ⟨List.Pairwise.nil, by intro e he; cases he⟩
  | cons d rest ih =>
    intro start hstart
    have hkeys := MDoc.renumber_keys d start
    have hopw : List.Pairwise (fun a b => a.1 < b.1)
        (d.renumber_objects_with start).objects := by
      rw [← List.pairwise_map (f := Prod.fst), hkeys]
      exact List.pairwise_lt_range' start d.objects.length
    have hbounds : ∀ e ∈ (d.renumber_objects_with start).objects,
        start ≤ e.1 ∧ e.1 < start + d.objects.length := by
      intro e he
      have : e.1 ∈ List.range' start d.objects.length := by
        rw [← hkeys]
        exact List.mem_map_of_mem Prod.fst he
      rw [List.mem_range'_1] at this
      omega
    have hstart' : 1 ≤ start + d.objects.length := by omega
    have ihr := ih (start + d.objects.length) hstart'
    constructor
    · simp only [objsPart]
      rw [renumber_maxId_succ d start hstart, List.pairwise_append]
      refine ⟨hopw, ihr.1, ?_⟩
      intro a ha b hb
      have h1 := (hbounds a ha).2
      have h2 := ihr.2 b hb
      omega
    · intro e he
      simp only [objsPart] at he
      rw [renumber_maxId_succ d start hstart] at he
      rcases List.mem_append.mp he with h' | h'
      · exact (hbounds e h').1
      · have := ihr.2 e h'
        omega

theorem pagesPart_facts (docs : List MDoc) : ∀ start : Nat, 1 ≤ start →
    (∀ d ∈ docs, docWf d) →
    (pagesPart docs start).map Prod.fst = mergedPageIds docs start ∧
    List.Pairwise (fun a b => a.1 < b.1) (pagesPart docs start) ∧
    ∀ e ∈ pagesPart docs start, start ≤ e.1 := by
  induction docs with
  | nil =>
    intro start _ _
    exact ⟨rfl, List.Pairwise.nil, by intro e he; cases he⟩
  | cons d rest ih =>
    intro start hstart hwf
    have hwfd := hwf d (List.mem_cons_self _ _)
    have hrp := renumbered_pages_facts d start hwfd
    have hspw : List.Pairwise (fun a b => a.1 < b.1)
        (pagesSnapshot (d.renumber_objects_with start)) := by
      rw [pagesSnapshot, List.pairwise_map]
      exact hrp.1
    have hsb : ∀ e ∈ pagesSnapshot (d.renumber_objects_with start),
        start ≤ e.1 ∧ e.1 < start + d.objects.length := by
      intro e he
      obtain ⟨p, hp, rfl⟩ := List.mem_map.mp he
      exact hrp.2 p hp
    have hstart' : 1 ≤ start + d.objects.length := by omega
    have ihr := ih (start + d.objects.length) hstart'
      (fun x hx => hwf x (List.mem_cons_of_mem _ hx))
    refine ⟨?_, ?_, ?_⟩
    · simp only [pagesPart, mergedPageIds]
      rw [List.map_append, pagesSnapshot_map_fst, renumber_maxId_succ d start hstart, ihr.1]
    · simp only [pagesPart]
      rw [renumber_maxId_succ d start hstart, List.pairwise_append]
      refine ⟨hspw, ihr.2.1, ?_⟩
      intro a ha b hb
      have h1 := (hsb a ha).2
      have h2 := ihr.2.2 b hb
      omega
    · intro e he
      simp only [pagesPart] at he
      rw [renumber_maxId_succ d start hstart] at he
      rcases List.mem_append.mp he with h' | h'
      · exact (hsb e h').1
      · have := ihr.2.2 e h'
        omega

/-- The per-document loop splits into disjoint ascending blocks: the two
`BTreeMap` extends reduce to appends, so `documents_pages` and
`documents_objects` are concatenations of the per-document parts. -/
theorem collectDocs_eq (docs : List MDoc) : ∀ (start : Nat) (accP accO : Table),
    1 ≤ start → (∀ d ∈ docs, docWf d) →
    (∀ e ∈ accP, e.1 < start) → List.Pairwise (fun a b => a.1 < b.1) accP →
    (∀ e ∈ accO, e.1 < start) → List.Pairwise (fun a b => a.1 < b.1) accO →
    collectDocs docs start (accP, accO) =
      (accP ++ pagesPart docs start, accO ++ objsPart docs start) := by
  induction docs with
  | nil =>
    intro start accP accO _ _ _ _ _ _
    simp [collectDocs, pagesPart, objsPart]
  | cons d rest ih =>
    intro start accP accO hstart hwf haccP hsaccP haccO hsaccO
    have hwfd := hwf d (List.mem_cons_self _ _)
    have hrp := renumbered_pages_facts d start hwfd
    have hnext := renumber_maxId_succ d start hstart
    have hstart' : 1 ≤ start + d.objects.length := by omega
    have hspw : List.Pairwise (fun a b => a.1 < b.1)
        (pagesSnapshot (d.renumber_objects_with start)) := by
      rw [pagesSnapshot, List.pairwise_map]
      exact hrp.1
    have hsb : ∀ e ∈ pagesSnapshot (d.renumber_objects_with start),
        start ≤ e.1 ∧ e.1 < start + d.objects.length := by
      intro e he
      obtain ⟨p, hp, rfl⟩ := List.mem_map.mp he
      exact hrp.2 p hp
    have hkeys := MDoc.renumber_keys d start
    have hopw : List.Pairwise (fun a b => a.1 < b.1)
        (d.renumber_objects_with start).objects := by
      rw [← List.pairwise_map (f := Prod.fst), hkeys]
      exact List.pairwise_lt_range' start d.objects.length
    have hob : ∀ e ∈ (d.renumber_objects_with start).objects,
        start ≤ e.1 ∧ e.1 < start + d.objects.length := by
      intro e he
      have : e.1 ∈ List.range' start d.objects.length := by
        rw [← hkeys]
        exact List.mem_map_of_mem Prod.fst he
      rw [List.mem_range'_1] at this
      omega
    simp only [collectDocs]
    rw [show Table.extend []
        ((d.renumber_objects_with start).pages.map
          (fun id => (id, (Table.lookup (d.renumber_objects_with start).objects id).getD .null))) =
        pagesSnapshot (d.renumber_objects_with start) by
      show Table.extend [] (pagesSnapshot (d.renumber_objects_with start)) = _
      rw [Table.extend_append _ [] (by intro e he; cases he) hspw]
      rfl]
    rw [Table.extend_append _ accP
      (fun e he x hx => by have := haccP e he; have := (hsb x hx).1; omega) hspw]
    rw [Table.extend_append _ accO
      (fun e he x hx => by have := haccO e he; have := (hob x hx).1; omega) hopw]
    rw [hnext]
    rw [ih (start + d.objects.length)
      (accP ++ pagesSnapshot (d.renumber_objects_with start))
      (accO ++ (d.renumber_objects_with start).objects)
      hstart'
      (fun x hx => hwf x (List.mem_cons_of_mem _ hx))
      (by
        intro e he
        rcases List.mem_append.mp he with h' | h'
        · have := haccP e h'; omega
        · exact (hsb e h').2)
      (by
        rw [List.pairwise_append]
        exact ⟨hsaccP, hspw, fun a ha b hb => by
          have := haccP a ha; have := (hsb b hb).1; omega⟩)
      (by
        intro e he
        rcases List.mem_append.mp he with h' | h'
        · have := haccO e h'; omega
        · exact (hob e h').2)
      (by
        rw [List.pairwise_append]
        exact ⟨hsaccO, hopw, fun a ha b hb => by
          have := haccO a ha; have := (hob b hb).1; omega⟩)]
    simp only [pagesPart, objsPart, Prod.mk.injEq]
    rw [hnext]
    constructor <;> rw [List.append_assoc]

theorem collectedPages_eq (documents : List MDoc) (hwf : ∀ d ∈ documents, docWf d) :
    collectedPages documents = pagesPart documents 1 := by
  show (collectDocs documents 1 ([], [])).1 = _
  rw [collectDocs_eq documents 1 [] [] (le_refl 1) hwf
    (by intro e he; cases he) List.Pairwise.nil
    (by intro e he; cases he) List.Pairwise.nil]
  simp

theorem collectedObjects_eq (documents : List MDoc) (hwf : ∀ d ∈ documents, docWf d) :
    collectedObjects documents = objsPart documents 1 := by
  show (collectDocs documents 1 ([], [])).2 = _
  rw [collectDocs_eq documents 1 [] [] (le_refl 1) hwf
    (by intro e he; cases he) List.Pairwise.nil
    (by intro e he; cases he) List.Pairwise.nil]
  simp

/-- Any object property preserved by renumbering transfers from some
input document's table into the collected object table. -/
theorem objsPart_exists (P : Obj → Prop) (hP : ∀ f o, P o → P (Obj.renumber f o))
    (docs : List MDoc) : ∀ start : Nat,
    (∃ d ∈ docs, ∃ x ∈ d.objects, P x.2) → ∃ e ∈ objsPart docs start, P e.2 := by
  induction docs with
  | nil =>
    intro start h
    obtain ⟨d, hd, -⟩ := h
    cases hd
  | cons d rest ih =>
    intro start h
    obtain ⟨d0, hd0, x, hx, hPx⟩ := h
    rcases List.mem_cons.mp hd0 with hh | hh
    · subst hh
      have hmem : Obj.renumber (renumberMap start (d0.objects.map Prod.fst)) x.2 ∈
          d0.objects.map (fun e =>
            Obj.renumber (renumberMap start (d0.objects.map Prod.fst)) e.2) :=
        List.mem_map_of_mem _ hx
      obtain ⟨k, hk⟩ := tagFrom_mem_of_mem _ start _ hmem
      refine ⟨(k, Obj.renumber (renumberMap start (d0.objects.map Prod.fst)) x.2), ?_, hP _ _ hPx⟩
      simp only [objsPart]
      exact List.mem_append.mpr (Or.inl hk)
    · obtain ⟨e, he, hPe⟩ := ih ((d.renumber_objects_with start).maxId + 1) ⟨d0, hh, x, hx, hPx⟩
      refine ⟨e, ?_, hPe⟩
      simp only [objsPart]
      exact List.mem_append.mpr (Or.inr he)

/-- C1 amended: when the merge completes, the canonical Pages-collection's
`Kids` is the ordered list of references to the collected leaf pages —
the inputs' renumbered page ids concatenated in input-document order
(`mergedPageIds`) — and its `Count` is that list's length, which equals
the sum of the inputs' leaf-page counts.  The within-document order is the
*renumbered-object-id* order of the `BTreeMap` snapshot; it coincides with
the document's original page order exactly under the `docWf` hypothesis
that each input's page object ids ascend in traversal order (see the
counterexample for the general case). -/
theorem c1_amended_kids_concatenated (documents : List MDoc)
    (hwf : ∀ d ∈ documents, docWf d)
    (hpagesEx : ∃ d ∈ documents, ∃ x ∈ d.objects,
      (Obj.typeName x.2).getD "" = "Pages" ∧ (Obj.as_dict x.2).isSome)
    (hcatEx : ∃ d ∈ documents, ∃ x ∈ d.objects,
      (Obj.typeName x.2).getD "" = "Catalog") :
    ∃ pid dd,
      (mergeScan documents).pagesObj.map Prod.fst = some pid ∧
      Table.lookup (merge_core documents emptyDoc).1.objects pid = some (.dict dd) ∧
      Dict.get dd "Kids" = some (.array ((mergedPageIds documents 1).map Obj.ref)) ∧
      Dict.get dd "Count" = some (.integer ((mergedPageIds documents 1).length : Int)) ∧
      (mergedPageIds documents 1).length =
        (documents.map (fun d => d.pages.length)).sum := by
  have hco := collectedObjects_eq documents hwf
  have hcp := collectedPages_eq documents hwf
  have hdpfst : (collectedPages documents).map Prod.fst = mergedPageIds documents 1 := by
    rw [hcp]
    exact (pagesPart_facts documents 1 (le_refl 1) hwf).1
  have hpEx' : ∃ e ∈ collectedObjects documents,
      (Obj.typeName e.2).getD "" = "Pages" ∧ (Obj.as_dict e.2).isSome := by
    rw [hco]
    refine objsPart_exists
      (fun o => (Obj.typeName o).getD "" = "Pages" ∧ (Obj.as_dict o).isSome)
      ?_ documents 1 hpagesEx
    intro f o h
    obtain ⟨h1, h2⟩ := h
    refine ⟨by rw [Obj.typeName_renumber]; exact h1, ?_⟩
    rw [Obj.as_dict_renumber]
    cases hdo : Obj.as_dict o with
    | none => rw [hdo] at h2; exact absurd h2 (by simp)
    | some dd => rfl
  have hcEx' : ∃ e ∈ collectedObjects documents,
      (Obj.typeName e.2).getD "" = "Catalog" := by
    rw [hco]
    refine objsPart_exists (fun o => (Obj.typeName o).getD "" = "Catalog")
      ?_ documents 1 hcatEx
    intro f o h
    rw [Obj.typeName_renumber]
    exact h
  rcases foldl_pagesStep_none (collectedObjects documents) with
    ⟨h1, h2⟩ | ⟨pid, pd', h1, o, ho, hto, hdo⟩
  · obtain ⟨e, he, hP⟩ := hpEx'
    exact absurd hP (h2 e he)
  · have hpo : (mergeScan documents).pagesObj = some (pid, .dict pd') := by
      rw [show (mergeScan documents).pagesObj =
        (collectedObjects documents).foldl pagesStep none from
          foldl_processEntry_pagesObj (collectedObjects documents) ⟨none, none, []⟩]
      exact h1
    have hfindSome : ((collectedObjects documents).find?
        (fun e => decide ((Obj.typeName e.2).getD "" = "Catalog"))).isSome := by
      rw [List.find?_isSome]
      obtain ⟨e, he, hP⟩ := hcEx'
      exact ⟨e, he, by simp [hP]⟩
    obtain ⟨fc, hfc⟩ := Option.isSome_iff_exists.mp hfindSome
    obtain ⟨co, hcat⟩ : ∃ co, (mergeScan documents).catalog = some (fc.1, co) := by
      rw [show (mergeScan documents).catalog =
        (collectedObjects documents).foldl catStep none from
          foldl_processEntry_catalog (collectedObjects documents) ⟨none, none, []⟩]
      rw [foldl_catStep_none, hfc]
      exact ⟨_, rfl⟩
    have hfcP : (Obj.typeName fc.2).getD "" = "Catalog" := by
      have := List.find?_some hfc
      simpa using this
    have hfcMem : fc ∈ collectedObjects documents := List.mem_of_find?_eq_some hfc
    have hsorted : List.Pairwise (fun a b => a.1 < b.1) (collectedObjects documents) := by
      rw [hco]
      exact (objsPart_facts documents 1 (le_refl 1)).1
    have hne : pid ≠ fc.1 := by
      intro hh
      have hofc : o = fc.2 := by
        apply Table.key_functional _ hsorted fc.1
        · rw [← hh]
          exact ho
        · exact hfcMem
      have hcontr : ("Pages" : String) = "Catalog" := by
        rw [← hto, hofc, hfcP]
      exact absurd hcontr (by decide)
    have hms : merge_core documents emptyDoc =
        mergeAfterScan (collectedPages documents) (mergeScan documents) emptyDoc := rfl
    refine ⟨pid, rebuiltPagesDict (collectedPages documents) pd', ?_, ?_, ?_, ?_, ?_⟩
    · rw [hpo]
      rfl
    · rw [hms, mergeAfterScan_some (collectedPages documents) (mergeScan documents)
        emptyDoc pid fc.1 (.dict pd') co hpo hcat]
      cases co <;>
        first
          | exact (Table.lookup_insert_ne _ fc.1 pid _ hne).trans
              (Table.lookup_insert_same _ _ _)
          | exact Table.lookup_insert_same _ _ _
    · refine (Dict.get_set_same _ _ _).trans ?_
      rw [← hdpfst, List.map_map]
      rfl
    · refine ((Dict.get_set_ne _ "Kids" "Count" _ (by decide)).trans
        (Dict.get_set_same _ _ _)).trans ?_
      rw [← hdpfst, List.length_map]
    · exact mergedPageIds_length documents 1

theorem c1_witness :
    ∃ pid dd,
      (mergeScan [catTagDoc 1, catTagDoc 2]).pagesObj.map Prod.fst = some pid ∧
      Table.lookup (merge_core [catTagDoc 1, catTagDoc 2] emptyDoc).1.objects pid =
        some (.dict dd) ∧
      Dict.get dd "Kids" =
        some (.array ((mergedPageIds [catTagDoc 1, catTagDoc 2] 1).map Obj.ref)) ∧
      Dict.get dd "Count" =
        some (.integer ((mergedPageIds [catTagDoc 1, catTagDoc 2] 1).length : Int)) ∧
      (mergedPageIds [catTagDoc 1, catTagDoc 2] 1).length =
        ([catTagDoc 1, catTagDoc 2].map (fun d => d.pages.length)).sum :=
  c1_amended_kids_concatenated [catTagDoc 1, catTagDoc 2] (by decide) (by decide) (by decide)

theorem c2_witness :
    Dict.get (merge_core [catTagDoc 1, catTagDoc 2] emptyDoc).1.trailer "Root" =
      some (.ref 1) ∧
    ∃ pid, (mergeScan [catTagDoc 1, catTagDoc 2]).pagesObj.map Prod.fst = some pid ∧
      Table.lookup (merge_core [catTagDoc 1, catTagDoc 2] emptyDoc).1.objects 1 =
        some (.dict (Dict.remove (Dict.set
          [("Type", Obj.name "Catalog"), ("Pages", Obj.ref 5), ("Tag", Obj.integer 2)]
          "Pages" (.ref pid)) "Outlines")) :=
  c2_amended_first_id_last_content [catTagDoc 1, catTagDoc 2] (by decide)
    (1, .dict [("Type", .name "Catalog"), ("Pages", .ref 2), ("Tag", .integer 1)])
    (4, .dict [("Type", .name "Catalog"), ("Pages", .ref 5), ("Tag", .integer 2)])
    [("Type", .name "Catalog"), ("Pages", .ref 5), ("Tag", .integer 2)]
    (by rfl) (by rfl) rfl

/-- C2 counterexample: merging two documents whose Catalogs carry
`Tag = 1` and `Tag = 2`, the merged root Catalog's content is the *last*
Catalog's (`Tag = 2`), not the first's — the merge keeps the first
Catalog's identifier but overwrites the collected content with every
later Catalog encountered. -/
theorem c2_counterexample :
    rootCatalogTag (merge_documents [catTagDoc 1, catTagDoc 2] emptyDoc) =
      some (.integer 2) ∧
    rootCatalogTag (merge_documents [catTagDoc 1, catTagDoc 2] emptyDoc) ≠
      some (.integer 1) := by
  refine ⟨rfl, ?_⟩
  intro h
  rw [show rootCatalogTag (merge_documents [catTagDoc 1, catTagDoc 2] emptyDoc) =
    some (.integer 2) from rfl] at h
  simp at h

theorem c9_witness :
    reverseStep (1, Obj.dict [("Type", Obj.name "Pages"), ("Kids", Obj.array [Obj.ref 2, Obj.ref 3])]) =
      .ok (1, Obj.dict [("Type", Obj.name "Pages"), ("Kids", Obj.array [Obj.ref 3, Obj.ref 2])]) :=
  c9_amended_reverse_kids_handling.1 1
    [("Type", Obj.name "Pages"), ("Kids", Obj.array [Obj.ref 2, Obj.ref 3])]
    [Obj.ref 2, Obj.ref 3] rfl rfl
